import Mathlib

/-
Verification of the intent-classification subsystem of kast_ai_potente.py
(functions load_model and get_intent), as a shallow embedding.

Modelling conventions:
- Python strings are Lean String; substring containment (the Python
  expression w in q) is strContains; normalization models
  query.lower().strip().
- The global _model is an Option E threaded explicitly; the environmental
  outcome of one SentenceTransformer construction attempt is a parameter
  construct : Option E (none models the constructor raising).
- The embedding model and cosine similarity are an oracle record Model E:
  fallible operations return Except Unit _, modelling Python exceptions.
- The dict _intent_cache is an association list; insertion prepends, and
  List.lookup finds the most recent insertion, matching dict lookup.
- get_intent returns, besides its result, the new global state and two
  instrumentation counters: constructor attempts and encode calls.
-/

namespace KastAI

/-- Does the first list occur as a leading segment of the second? -/
def leadsList : List Char → List Char → Bool
  | [], _ => true
  | _ :: _, [] => false
  | c :: cs, d :: ds => c == d && leadsList cs ds

/-- Does the first list occur contiguously anywhere inside the second? -/
def containsSub (needle : List Char) : List Char → Bool
  | [] => leadsList needle []
  | d :: ds => leadsList needle (d :: ds) || containsSub needle ds

/-- Python membership test needle in hay on strings. -/
def strContains (needle hay : String) : Bool :=
  containsSub needle.data hay.data

/-- Python str.strip: drop leading and trailing whitespace. -/
def stripEnds (l : List Char) : List Char :=
  ((l.dropWhile Char.isWhitespace).reverse.dropWhile Char.isWhitespace).reverse

/-- Line 46: query.lower().strip(). -/
def normalize (q : String) : String :=
  String.mk (stripEnds (q.data.map Char.toLower))

/-- Lines 50-59: the keyword table, in source order. -/
def keywords : List (String × List String) :=
  [("depósito", ["depositar", "depósito", "tx hash", "adicionar fundos"]),
   ("saldo", ["saldo", "quanto tenho", "balance"]),
   ("cartão", ["cartão", "card", "kard"]),
   ("fees", ["fees", "taxas", "custo", "comissão"]),
   ("viagens", ["viagem", "travel", "fora país"]),
   ("suporte", ["ajuda", "suporte", "human", "ticket"]),
   ("yield", ["yield", "juros", "apy", "ganhar"]),
   ("cashback", ["cashback", "recompensa", "pontos"])]

/-- Lines 60-63: scan the rules in order, return the first label one of
whose triggers occurs in the query, else "unknown". -/
def keywordScan (q : String) : List (String × List String) → String
  | [] => "unknown"
  | (intent, words) :: rest =>
      if words.any (fun w => strContains w q) then intent else keywordScan q rest

/-- The whole keyword fallback path (lines 49-63) on a normalized query. -/
def keywordPath (q : String) : String := keywordScan q keywords

/-- Line 77: the fixed label list of the semantic path, in source order. -/
def intents : List String :=
  ["depósito", "saldo", "cartão", "fees", "viagens", "suporte", "yield", "cashback"]

/-- Lines 30-42: load_model. The global _model comes in as m; construct is
what one construction attempt would yield in the current environment (none
models SentenceTransformer(...) raising, caught at line 39, leaving
_model = None). Returns (result, new _model, number of construction
attempts performed by this call). -/
def load_model {E : Type} (construct : Option E) (m : Option E) :
    Option E × Option E × Nat :=
  match m with
  | some x => (some x, some x, 0)
  | none => (construct, construct, 1)

/-- The embedding oracle: model.encode and util.cos_sim(..).item().
Except Unit models a raised exception. -/
structure Model (E : Type) where
  encode : String → Except Unit E
  cos : E → E → Except Unit Rat

/-- Lines 83-88: the scoring loop. qe is the query embedding; the two
accumulators are best_score and best_intent. Besides the loop outcome we
return the number of encode calls the loop performed. -/
def semanticLoop {E : Type} (mo : Model E) (qe : E) :
    List String → Rat → String → Except Unit (Rat × String) × Nat
  | [], best, bi => (Except.ok (best, bi), 0)
  | i :: rest, best, bi =>
    match mo.encode i with
    | Except.error e => (Except.error e, 1)
    | Except.ok ie =>
      match mo.cos qe ie with
      | Except.error e => (Except.error e, 1)
      | Except.ok s =>
        let r := if s > best then semanticLoop mo qe rest s i
                 else semanticLoop mo qe rest best bi
        (r.1, r.2 + 1)

/-- What one get_intent call produces: the returned string, the new values
of the globals _model and _intent_cache, and instrumentation counters. -/
structure Outcome (E : Type) where
  result : String
  model : Option E
  cache : List (String × String)
  constructCalls : Nat
  encodeCalls : Nat
  deriving Repr, DecidableEq

/-- Line 90: the similarity threshold 0.62 (written via mkRat so that it
reduces in the kernel). -/
def threshold : Rat := mkRat 62 100

/-- Lines 69-100: the try block of the semantic path, on the normalized
query t. Returns (result, new cache, encode calls). An exception anywhere
inside (query encoding at line 78, label encoding or scoring at lines
84-85) reaches the handler at line 97: result "unknown", cache untouched.
-/
def semPath {E : Type} (mo : Model E) (t : String)
    (cache : List (String × String)) : String × List (String × String) × Nat :=
  match mo.encode t with                        -- line 78
  | Except.error _ => ("unknown", cache, 1)     -- lines 97-100
  | Except.ok qe =>
    match semanticLoop mo qe intents (-1) "unknown" with  -- lines 80-88
    | (Except.error _, n) => ("unknown", cache, 1 + n)
    | (Except.ok (best, bi), n) =>
      if best > threshold then                  -- lines 90-92
        (bi, (t, bi) :: cache, 1 + n)
      else                                      -- lines 94-95
        ("unknown", (t, "unknown") :: cache, 1 + n)

/-- Lines 44-100: get_intent. construct is the environmental outcome of a
construction attempt during this call (at most one can happen); mo is the
embedding oracle; model0 and cache are the globals on entry. -/
def get_intent {E : Type} (construct : Option E) (mo : Model E) (qraw : String)
    (model0 : Option E) (cache : List (String × String)) : Outcome E :=
  let q := normalize qraw
  match load_model construct model0 with
  | (none, m1, a1) =>
      -- line 49: model absent, keyword fallback; cache untouched
      ⟨keywordPath q, m1, cache, a1, 0⟩
  | (some _, m1, a1) =>
    match List.lookup q cache with
    | some v => ⟨v, m1, cache, a1, 0⟩          -- lines 66-67
    | none =>
      match load_model construct m1 with        -- line 73
      | (none, m2, a2) => ⟨"unknown", m2, cache, a1 + a2, 0⟩  -- lines 74-75
      | (some _, m2, a2) =>
        let r := semPath mo q cache
        ⟨r.1, m2, r.2.1, a1 + a2, r.2.2⟩

/-- A deterministic oracle built from a pure per-label score function:
encode is the identity on text and never fails, and cosine similarity of
the query against label i is sc i. Realizes the no-failure environments
of the spec. -/
def pureModel (sc : String → Rat) : Model String :=
  { encode := fun s => Except.ok s, cos := fun _ i => Except.ok (sc i) }

/-- An oracle whose every operation raises: realizes total embedding
failure. -/
def nullModel : Model Unit :=
  { encode := fun _ => Except.error (), cos := fun _ _ => Except.error () }

/-- Running maximum of the scores of a label list, started from a. -/
def maxFrom (sc : String → Rat) : List String → Rat → Rat
  | [], a => a
  | i :: rest, a => maxFrom sc rest (max a (sc i))

/-- Score function for the C2 witness: saldo scores 1, all else 0. -/
def scW : String → Rat := fun s => if s = "saldo" then 1 else 0

/-- Any value found by association-list lookup is the value of some stored
pair. -/
theorem lookup_mem_val {β : Type} (a : String) (b : β) (l : List (String × β))
    (h : List.lookup a l = some b) : ∃ p ∈ l, p.2 = b := by
  induction l with
  | nil => simp [List.lookup] at h
  | cons kv t ih =>
    obtain ⟨k, v⟩ := kv
    cases hk : a == k with
    | true =>
      simp [List.lookup, hk] at h
      exact ⟨(k, v), by simp, by simp [h]⟩
    | false =>
      rw [List.lookup, hk] at h
      obtain ⟨p, hp, he⟩ := ih h
      exact ⟨p, by simp [hp], he⟩

/-- Looking up a key in a list headed by that very key yields the head
value. -/
theorem lookup_cons_self {β : Type} (a : String) (b : β) (l : List (String × β)) :
    List.lookup a ((a, b) :: l) = some b := by
  simp [List.lookup]

/-- The keyword scan only ever returns "unknown" or one of the scanned
labels. -/
theorem keywordScan_mem (q : String) (l : List (String × List String)) :
    keywordScan q l ∈ "unknown" :: l.map Prod.fst := by
  induction l with
  | nil => simp [keywordScan]
  | cons p t ih =>
    obtain ⟨intent, words⟩ := p
    by_cases h : (words.any fun w => strContains w q) = true
    · simp [keywordScan, h]
    · have h2 : (words.any fun w => strContains w q) = false := by simpa using h
      rcases List.mem_cons.mp ih with h3 | h3
      · simp [keywordScan, h2, h3]
      · simp only [keywordScan, h2, if_false, List.map_cons]
        exact List.mem_cons.mpr (Or.inr (List.mem_cons.mpr (Or.inr h3)))

/-- First-match characterization of the keyword scan: either no trigger of
any rule occurs in the query and the scan returns "unknown", or the rule
list splits around the returned label, one of whose triggers occurs in
the query while no trigger of any earlier rule does. -/
theorem keywordScan_first (q : String) (l : List (String × List String)) :
    (keywordScan q l = "unknown" ∧
       ∀ p ∈ l, ∀ w ∈ p.2, strContains w q = false) ∨
    (∃ pre ws suf, l = pre ++ (keywordScan q l, ws) :: suf ∧
       (∃ w ∈ ws, strContains w q = true) ∧
       ∀ p ∈ pre, ∀ w ∈ p.2, strContains w q = false) := by
  induction l with
  | nil => exact Or.inl ⟨rfl, by simp⟩
  | cons p t ih =>
    obtain ⟨intent, words⟩ := p
    by_cases h : (words.any fun w => strContains w q) = true
    · right
      refine ⟨[], words, t, ?_, ?_, by simp⟩
      · simp [keywordScan, h]
      · obtain ⟨w, hw, hcw⟩ := List.any_eq_true.mp h
        exact ⟨w, hw, hcw⟩
    · have h2 : (words.any fun w => strContains w q) = false := by simpa using h
      have hall : ∀ w ∈ words, strContains w q = false := by
        intro w hw
        have h3 := List.any_eq_false.mp h2 w hw
        simpa using h3
      have hks : keywordScan q ((intent, words) :: t) = keywordScan q t := by
        simp [keywordScan, h2]
      rcases ih with ⟨hu, hnone⟩ | ⟨pre, ws, suf, heq, hex, hpre⟩
      · left
        refine ⟨by rw [hks, hu], ?_⟩
        intro p hp
        rcases List.mem_cons.mp hp with rfl | hp2
        · exact hall
        · exact hnone p hp2
      · right
        refine ⟨(intent, words) :: pre, ws, suf, ?_, hex, ?_⟩
        · rw [hks]
          simpa using congrArg (fun ln => (intent, words) :: ln) heq
        · intro p hp
          rcases List.mem_cons.mp hp with rfl | hp2
          · exact hall
          · exact hpre p hp2

theorem maxFrom_init_le (sc : String → Rat) :
    ∀ (l : List String) (a : Rat), a ≤ maxFrom sc l a := by
  intro l
  induction l with
  | nil => intro a; exact le_refl a
  | cons i rest ih =>
    intro a
    exact le_trans (le_max_left a (sc i)) (ih (max a (sc i)))

theorem maxFrom_mem_le (sc : String → Rat) :
    ∀ (l : List String) (a : Rat), ∀ x ∈ l, sc x ≤ maxFrom sc l a := by
  intro l
  induction l with
  | nil => intro a x hx; simp at hx
  | cons i rest ih =>
    intro a x hx
    rcases List.mem_cons.mp hx with rfl | hx2
    · exact le_trans (le_max_right a (sc x)) (maxFrom_init_le sc rest (max a (sc x)))
    · exact ih (max a (sc i)) x hx2

theorem maxFrom_le (sc : String → Rat) :
    ∀ (l : List String) (a c : Rat), a ≤ c → (∀ x ∈ l, sc x ≤ c) →
      maxFrom sc l a ≤ c := by
  intro l
  induction l with
  | nil => intro a c ha _; exact ha
  | cons i rest ih =>
    intro a c ha hl
    exact ih (max a (sc i)) c (max_le ha (hl i (by simp)))
      (fun x hx => hl x (List.mem_cons.mpr (Or.inr hx)))

/-- With a pure oracle the scoring loop never fails, makes one encode call
per label, tracks the running maximum, and keeps the FIRST strict
improver: either nothing beat the initial accumulator (which then comes
back unchanged), or the list splits at the returned label, which attains
the final maximum while every earlier label scores strictly below it. -/
theorem semanticLoop_pure_spec (sc : String → Rat) (qe : String) :
    ∀ (l : List String) (best : Rat) (bi : String),
      ∃ b s, semanticLoop (pureModel sc) qe l best bi
          = (Except.ok (b, s), l.length) ∧
        b = maxFrom sc l best ∧
        ((b = best ∧ s = bi) ∨
         (b > best ∧ ∃ pre suf, l = pre ++ s :: suf ∧ sc s = b ∧
            ∀ x ∈ pre, sc x < b)) := by
  intro l
  induction l with
  | nil =>
    intro best bi
    exact ⟨best, bi, rfl, rfl, Or.inl ⟨rfl, rfl⟩⟩
  | cons i rest ih =>
    intro best bi
    have hstep : semanticLoop (pureModel sc) qe (i :: rest) best bi
        = ((if sc i > best then semanticLoop (pureModel sc) qe rest (sc i) i
            else semanticLoop (pureModel sc) qe rest best bi).1,
           (if sc i > best then semanticLoop (pureModel sc) qe rest (sc i) i
            else semanticLoop (pureModel sc) qe rest best bi).2 + 1) := rfl
    by_cases h : sc i > best
    · obtain ⟨b, s, heq, hmax, hd⟩ := ih (sc i) i
      refine ⟨b, s, ?_, ?_, ?_⟩
      · rw [hstep, if_pos h, heq]
        rfl
      · rw [maxFrom, max_eq_right (le_of_lt h)]
        exact hmax
      · rcases hd with ⟨hb, hs⟩ | ⟨hgt, pre, suf, hsplit, hsc, hpre⟩
        · right
          refine ⟨by rw [hb]; exact h, [], rest, by simp [hs], by rw [hs, hb], by simp⟩
        · right
          refine ⟨lt_trans h hgt, i :: pre, suf, by simp [hsplit], hsc, ?_⟩
          intro x hx
          rcases List.mem_cons.mp hx with rfl | hx2
          · exact hgt
          · exact hpre x hx2
    · have hle : sc i ≤ best := le_of_not_lt h
      obtain ⟨b, s, heq, hmax, hd⟩ := ih best bi
      refine ⟨b, s, ?_, ?_, ?_⟩
      · rw [hstep, if_neg h, heq]
        rfl
      · rw [maxFrom, max_eq_left hle]
        exact hmax
      · rcases hd with ⟨hb, hs⟩ | ⟨hgt, pre, suf, hsplit, hsc, hpre⟩
        · exact Or.inl ⟨hb, hs⟩
        · right
          refine ⟨hgt, i :: pre, suf, by simp [hsplit], hsc, ?_⟩
          intro x hx
          rcases List.mem_cons.mp hx with rfl | hx2
          · exact lt_of_le_of_lt hle hgt
          · exact hpre x hx2

/-- Whatever oracle drives it, when the scoring loop completes, the label
it hands back is the initial best_intent or one of the scanned labels. -/
theorem semanticLoop_label_mem {E : Type} (mo : Model E) (qe : E) :
    ∀ (l : List String) (best : Rat) (bi : String) (b : Rat) (s : String) (n : Nat),
      semanticLoop mo qe l best bi = (Except.ok (b, s), n) → s = bi ∨ s ∈ l := by
  intro l
  induction l with
  | nil =>
    intro best bi b s n h
    simp [semanticLoop] at h
    exact Or.inl h.1.2.symm
  | cons i rest ih =>
    intro best bi b s n h
    cases he : mo.encode i with
    | error e => simp [semanticLoop, he] at h
    | ok ie =>
      cases hcs : mo.cos qe ie with
      | error e => simp [semanticLoop, he, hcs] at h
      | ok s0 =>
        simp only [semanticLoop, he, hcs] at h
        by_cases hgt : s0 > best
        · rcases hr : semanticLoop mo qe rest s0 i with ⟨r2, n2⟩
          rw [if_pos hgt, hr] at h
          simp at h
          have h2 : semanticLoop mo qe rest s0 i = (Except.ok (b, s), n2) := by
            rw [hr, h.1]
          rcases ih s0 i b s n2 h2 with rfl | hmem
          · exact Or.inr (by simp)
          · exact Or.inr (List.mem_cons.mpr (Or.inr hmem))
        · rcases hr : semanticLoop mo qe rest best bi with ⟨r2, n2⟩
          rw [if_neg hgt, hr] at h
          simp at h
          have h2 : semanticLoop mo qe rest best bi = (Except.ok (b, s), n2) := by
            rw [hr, h.1]
          rcases ih best bi b s n2 h2 with rfl | hmem
          · exact Or.inl rfl
          · exact Or.inr (List.mem_cons.mpr (Or.inr hmem))

/-- Cache hit: with the model available and the normalized query cached,
get_intent returns the cached decision, changes nothing, and performs no
construction attempt and no encode call (lines 66-67). -/
theorem get_intent_hit {E : Type} (construct : Option E) (mo : Model E)
    (q : String) (x : E) (cache : List (String × String)) (v : String)
    (hv : List.lookup (normalize q) cache = some v) :
    get_intent construct mo q (some x) cache = ⟨v, some x, cache, 0, 0⟩ := by
  simp [get_intent, load_model, hv]

/-- The try block always hands back a label from the closed set, a cache
that is the old one possibly extended with the decision for the query,
and at least one encode call (the query embedding at line 78). -/
theorem semPath_spec {E : Type} (mo : Model E) (t : String)
    (cache : List (String × String)) :
    (semPath mo t cache).1 ∈ "unknown" :: intents ∧
    ((semPath mo t cache).2.1 = cache ∨
     (semPath mo t cache).2.1 = (t, (semPath mo t cache).1) :: cache) ∧
    1 ≤ (semPath mo t cache).2.2 := by
  unfold semPath
  cases he : mo.encode t with
  | error e => exact ⟨by simp, Or.inl rfl, le_refl 1⟩
  | ok qe =>
    dsimp only
    rcases hl : semanticLoop mo qe intents (-1) "unknown" with ⟨r, n⟩
    cases r with
    | error e => exact ⟨by simp, Or.inl rfl, by simp⟩
    | ok p =>
      obtain ⟨b, s⟩ := p
      dsimp only
      have hmem : s ∈ "unknown" :: intents := by
        rcases semanticLoop_label_mem mo qe intents (-1) "unknown" b s n hl with
          rfl | hs
        · simp
        · exact List.mem_cons.mpr (Or.inr hs)
      by_cases hb : b > threshold
      · rw [if_pos hb]
        exact ⟨hmem, Or.inr rfl, by simp⟩
      · rw [if_neg hb]
        exact ⟨by simp, Or.inr rfl, by simp⟩

/-- When the query embedding raises, or the scoring loop raises, the try
block yields "unknown" and leaves the cache exactly as it was. -/
theorem semPath_err {E : Type} (mo : Model E) (t : String)
    (cache : List (String × String))
    (herr : (∃ e, mo.encode t = Except.error e) ∨
            (∃ qe, mo.encode t = Except.ok qe ∧
               ∃ e n, semanticLoop mo qe intents (-1) "unknown"
                   = (Except.error e, n))) :
    (semPath mo t cache).1 = "unknown" ∧ (semPath mo t cache).2.1 = cache := by
  rcases herr with ⟨e, he⟩ | ⟨qe, hqe, e, n, hl⟩
  · exact ⟨by simp [semPath, he], by simp [semPath, he]⟩
  · exact ⟨by simp [semPath, hqe, hl], by simp [semPath, hqe, hl]⟩

/-- With a pure oracle the try block never fails: it makes 9 encode calls
(the query plus the 8 labels) and stores the threshold decision. -/
theorem semPath_pure (sc : String → Rat) (t : String)
    (cache : List (String × String)) :
    ∃ b s, semanticLoop (pureModel sc) t intents (-1) "unknown"
        = (Except.ok (b, s), 8) ∧
      semPath (pureModel sc) t cache
        = if b > threshold then (s, (t, s) :: cache, 9)
          else ("unknown", (t, "unknown") :: cache, 9) := by
  obtain ⟨b, s, heq, _, _⟩ := semanticLoop_pure_spec sc t intents (-1) "unknown"
  have heq8 : semanticLoop (pureModel sc) t intents (-1) "unknown"
      = (Except.ok (b, s), 8) := by
    rw [heq]; rfl
  refine ⟨b, s, heq8, ?_⟩
  have hpe : (pureModel sc).encode t = Except.ok t := rfl
  simp only [semPath, hpe, heq8]

/-- With no model and a failing construction attempt, get_intent takes
the keyword fallback (line 49): one construction attempt, no encode call,
cache untouched. -/
theorem get_intent_model_none {E : Type} (mo : Model E) (q : String)
    (cache : List (String × String)) :
    get_intent (none : Option E) mo q none cache
      = ⟨keywordPath (normalize q), none, cache, 1, 0⟩ := by
  simp [get_intent, load_model]

/-- With the model already loaded and the normalized query not cached,
get_intent delegates to the try block. -/
theorem get_intent_sem {E : Type} (construct : Option E) (mo : Model E)
    (q : String) (x : E) (cache : List (String × String))
    (hc : List.lookup (normalize q) cache = none) :
    get_intent construct mo q (some x) cache
      = ⟨(semPath mo (normalize q) cache).1, some x,
         (semPath mo (normalize q) cache).2.1, 0,
         (semPath mo (normalize q) cache).2.2⟩ := by
  simp [get_intent, load_model, hc]

/-- First call with no model yet but a succeeding construction attempt:
one construction, then the try block. -/
theorem get_intent_lazy_sem {E : Type} (mo : Model E) (q : String) (c : E)
    (cache : List (String × String))
    (hc : List.lookup (normalize q) cache = none) :
    get_intent (some c) mo q none cache
      = ⟨(semPath mo (normalize q) cache).1, some c,
         (semPath mo (normalize q) cache).2.1, 1,
         (semPath mo (normalize q) cache).2.2⟩ := by
  simp [get_intent, load_model, hc]

/-- First call with no model yet, succeeding construction, and the query
already cached: the cached decision comes straight back. -/
theorem get_intent_lazy_hit {E : Type} (mo : Model E) (q : String) (c : E)
    (cache : List (String × String)) (v : String)
    (hv : List.lookup (normalize q) cache = some v) :
    get_intent (some c) mo q none cache = ⟨v, some c, cache, 1, 0⟩ := by
  simp [get_intent, load_model, hv]

/-- The threshold constant written with mkRat is the source literal 0.62.
-/
theorem threshold_is_62_hundredths : threshold = 0.62 := by
  norm_num [threshold, mkRat]

/-- Sanity checks of the embedding on concrete inputs: substring test,
normalization, keyword fallback on the spec test queries, and the
below-threshold and at-threshold semantic outcomes. -/
theorem embedding_sanity :
    strContains "card" "discard" = true ∧
    normalize "  ABC  " = "abc" ∧
    keywordPath "quero fazer um depósito" = "depósito" ∧
    keywordPath "xyz nonsense" = "unknown" ∧
    (get_intent (none : Option Unit) nullModel "quero saber o saldo" none
        []).result = "saldo" ∧
    (get_intent (some "m") (pureModel (fun _ => mkRat 62 100)) "oi"
        (some "m") []).result = "unknown" := by
  decide

/-- C1, counterexample: provisioning permanence fails on the code. A first
load_model call whose construction attempt fails (construct = none, the
line-39 handler) leaves the stored state None rather than a permanent
"unavailable" marker; a second call therefore performs a fresh
construction attempt (count 1, not 0) and, when the environment now
succeeds, even returns the newly built model — the claimed
once-only transition uninitialized/available/unavailable does not exist.
-/
theorem c1_counterexample :
    (load_model (none : Option Unit) none).1 = none ∧
    (load_model (none : Option Unit) none).2.1 = none ∧
    load_model (some ()) (load_model (none : Option Unit) none).2.1
      = (some (), some (), 1) :=
  ⟨rfl, rfl, rfl⟩

/-- C1, amended: a failed construction attempt is not recorded as
permanent: the failing call returns absence and leaves the state
uninitialized (None), and every later call made while the state is None
performs a fresh construction attempt (exactly one per call) and returns
its outcome — so the availability can flip from failed to available.
Only success is sticky: once the state holds a model, every later call
returns it with zero construction attempts. -/
theorem c1_retry_after_failure {E : Type} (c2 : Option E) :
    (load_model (none : Option E) none).1 = none ∧
    (load_model (none : Option E) none).2.1 = none ∧
    (load_model (none : Option E) none).2.2 = 1 ∧
    load_model c2 (load_model (none : Option E) none).2.1 = (c2, c2, 1) ∧
    ∀ x : E, load_model c2 (some x) = (some x, some x, 0) :=
  ⟨rfl, rfl, rfl, rfl, fun _ => rfl⟩

/-- C2: on the semantic path (model available, normalized query not
cached, the pure oracle never failing), if some label scores strictly
above the threshold, the returned label is the first maximizer: the label
list splits around it, its score is maximal over all labels, strictly
above every earlier label (line 86 uses strict >, so a later equal score
never replaces the current best), and strictly above the threshold;
conversely if no label scores strictly above the threshold — in
particular when every score is exactly 0.62 — "unknown" is returned. -/
theorem c2_semantic_first_argmax (sc : String → Rat) (q : String)
    (cache : List (String × String))
    (hc : List.lookup (normalize q) cache = none) :
    ((∃ x ∈ intents, sc x > threshold) →
       ∃ pre suf,
         intents = pre
             ++ (get_intent (some "m") (pureModel sc) q (some "m") cache).result
             :: suf ∧
         sc (get_intent (some "m") (pureModel sc) q (some "m") cache).result
             > threshold ∧
         (∀ x ∈ intents,
            sc x ≤ sc (get_intent (some "m") (pureModel sc) q
                (some "m") cache).result) ∧
         (∀ x ∈ pre,
            sc x < sc (get_intent (some "m") (pureModel sc) q
                (some "m") cache).result)) ∧
    ((∀ x ∈ intents, sc x ≤ threshold) →
       (get_intent (some "m") (pureModel sc) q (some "m") cache).result
           = "unknown") := by
  obtain ⟨b, s, heq, hmax, hd⟩ :=
    semanticLoop_pure_spec sc (normalize q) intents (-1) "unknown"
  have heq8 : semanticLoop (pureModel sc) (normalize q) intents (-1) "unknown"
      = (Except.ok (b, s), 8) := by
    rw [heq]; rfl
  have hpe : (pureModel sc).encode (normalize q)
      = Except.ok (normalize q) := rfl
  have hsp : semPath (pureModel sc) (normalize q) cache
      = if b > threshold then (s, (normalize q, s) :: cache, 9)
        else ("unknown", (normalize q, "unknown") :: cache, 9) := by
    simp only [semPath, hpe, heq8]
  have hgi := get_intent_sem (some "m") (pureModel sc) q "m" cache hc
  have hres : (get_intent (some "m") (pureModel sc) q (some "m") cache).result
      = (semPath (pureModel sc) (normalize q) cache).1 := by
    rw [hgi]
  have hth : (-1 : Rat) < threshold := by decide
  constructor
  · rintro ⟨x, hx, hxgt⟩
    have hbx : sc x ≤ b := by
      rw [hmax]
      exact maxFrom_mem_le sc intents (-1) x hx
    have hbt : b > threshold := lt_of_lt_of_le hxgt hbx
    have hres2 : (get_intent (some "m") (pureModel sc) q
        (some "m") cache).result = s := by
      rw [hres, hsp, if_pos hbt]
    rcases hd with ⟨hb1, _⟩ | ⟨_, pre, suf, hsplit, hsc, hpre⟩
    · exfalso
      rw [hb1] at hbt
      exact absurd hbt (not_lt.mpr (le_of_lt hth))
    · refine ⟨pre, suf, ?_, ?_, ?_, ?_⟩
      · rw [hres2]; exact hsplit
      · rw [hres2, hsc]; exact hbt
      · intro y hy
        rw [hres2, hsc, hmax]
        exact maxFrom_mem_le sc intents (-1) y hy
      · intro y hy
        rw [hres2, hsc]
        exact hpre y hy
  · intro hall
    have hble : b ≤ threshold := by
      rw [hmax]
      exact maxFrom_le sc intents (-1) threshold (le_of_lt hth) hall
    rw [hres, hsp, if_neg (not_lt.mpr hble)]

/-- C2 witness: the theorem instantiated at the concrete oracle scW (one
winning label) on an empty cache. -/
theorem c2_witness :
    List.lookup (normalize "oi") ([] : List (String × String)) = none ∧
    (((∃ x ∈ intents, scW x > threshold) →
       ∃ pre suf,
         intents = pre
             ++ (get_intent (some "m") (pureModel scW) "oi" (some "m") []).result
             :: suf ∧
         scW (get_intent (some "m") (pureModel scW) "oi" (some "m") []).result
             > threshold ∧
         (∀ x ∈ intents,
            scW x ≤ scW (get_intent (some "m") (pureModel scW) "oi"
                (some "m") []).result) ∧
         (∀ x ∈ pre,
            scW x < scW (get_intent (some "m") (pureModel scW) "oi"
                (some "m") []).result)) ∧
     ((∀ x ∈ intents, scW x ≤ threshold) →
       (get_intent (some "m") (pureModel scW) "oi" (some "m") []).result
           = "unknown")) :=
  ⟨rfl, c2_semantic_first_argmax scW "oi" [] rfl⟩

/-- C3: totality and closed range. Whatever the environment does — any
construction outcome, any oracle (including one that raises everywhere,
all raising modelled by Except and handled inside), any initial model
state — if every decision stored in the cache is one of the eight labels
or "unknown", then get_intent returns one of the eight labels or
"unknown" and leaves a cache still storing only such values. get_intent
is a total Lean function, so no exception escapes to the caller. -/
theorem c3_total {E : Type} (construct : Option E) (mo : Model E)
    (q : String) (m0 : Option E) (cache : List (String × String))
    (hc : ∀ p ∈ cache, p.2 ∈ "unknown" :: intents) :
    (get_intent construct mo q m0 cache).result ∈ "unknown" :: intents ∧
    ∀ p ∈ (get_intent construct mo q m0 cache).cache,
      p.2 ∈ "unknown" :: intents := by
  have hkw : keywordPath (normalize q) ∈ "unknown" :: intents := by
    have h1 := keywordScan_mem (normalize q) keywords
    have h2 : keywords.map Prod.fst = intents := rfl
    rw [h2] at h1
    exact h1
  obtain ⟨hm1, hm2, _⟩ := semPath_spec mo (normalize q) cache
  have hcache2 : ∀ p ∈ (semPath mo (normalize q) cache).2.1,
      p.2 ∈ "unknown" :: intents := by
    rcases hm2 with hm2 | hm2
    · rw [hm2]; exact hc
    · rw [hm2]
      intro p hp
      rcases List.mem_cons.mp hp with rfl | hp2
      · exact hm1
      · exact hc p hp2
  have hhit : ∀ v, List.lookup (normalize q) cache = some v →
      v ∈ "unknown" :: intents := by
    intro v hl
    obtain ⟨p, hp, he⟩ := lookup_mem_val (normalize q) v cache hl
    rw [← he]
    exact hc p hp
  rcases m0 with _ | x
  · rcases construct with _ | c
    · rw [get_intent_model_none]
      exact ⟨hkw, hc⟩
    · cases hl : List.lookup (normalize q) cache with
      | some v =>
        rw [get_intent_lazy_hit mo q c cache v hl]
        exact ⟨hhit v hl, hc⟩
      | none =>
        rw [get_intent_lazy_sem mo q c cache hl]
        exact ⟨hm1, hcache2⟩
  · cases hl : List.lookup (normalize q) cache with
    | some v =>
      rw [get_intent_hit construct mo q x cache v hl]
      exact ⟨hhit v hl, hc⟩
    | none =>
      rw [get_intent_sem construct mo q x cache hl]
      exact ⟨hm1, hcache2⟩

/-- C3 witness: a concrete call against the always-raising oracle with a
well-formed one-entry cache. -/
theorem c3_witness :
    (∀ p ∈ [("a", "saldo")], p.2 ∈ "unknown" :: intents) ∧
    ((get_intent (none : Option Unit) nullModel "oi" none
        [("a", "saldo")]).result ∈ "unknown" :: intents ∧
     ∀ p ∈ (get_intent (none : Option Unit) nullModel "oi" none
        [("a", "saldo")]).cache, p.2 ∈ "unknown" :: intents) :=
  ⟨by decide, c3_total none nullModel "oi" none [("a", "saldo")] (by decide)⟩

/-- C4: cache idempotence on the semantic path with a pure oracle. After
any first call on query q, a second call with any query normalizing the
same returns the first call decision unchanged — including a decision
"unknown" stored because the best score missed the threshold — leaves
the cache unchanged, and performs zero encode calls. -/
theorem c4_cache_idempotent (sc : String → Rat) (q q2 : String)
    (cache : List (String × String)) (h : normalize q2 = normalize q) :
    (get_intent (some "m") (pureModel sc) q2 (some "m")
        (get_intent (some "m") (pureModel sc) q (some "m") cache).cache).result
      = (get_intent (some "m") (pureModel sc) q (some "m") cache).result ∧
    (get_intent (some "m") (pureModel sc) q2 (some "m")
        (get_intent (some "m") (pureModel sc) q (some "m") cache).cache).cache
      = (get_intent (some "m") (pureModel sc) q (some "m") cache).cache ∧
    (get_intent (some "m") (pureModel sc) q2 (some "m")
        (get_intent (some "m") (pureModel sc) q (some "m") cache).cache).encodeCalls
      = 0 := by
  cases hcq : List.lookup (normalize q) cache with
  | some v =>
    rw [get_intent_hit (some "m") (pureModel sc) q "m" cache v hcq]
    dsimp only
    rw [get_intent_hit (some "m") (pureModel sc) q2 "m" cache v
      (by rw [h]; exact hcq)]
    exact ⟨rfl, rfl, rfl⟩
  | none =>
    obtain ⟨b, s, heq, hsp⟩ := semPath_pure sc (normalize q) cache
    rw [get_intent_sem (some "m") (pureModel sc) q "m" cache hcq]
    by_cases hb : b > threshold
    · rw [if_pos hb] at hsp
      rw [hsp]
      dsimp only
      rw [get_intent_hit (some "m") (pureModel sc) q2 "m"
        ((normalize q, s) :: cache) s
        (by rw [h]; exact lookup_cons_self (normalize q) s cache)]
      exact ⟨rfl, rfl, rfl⟩
    · rw [if_neg hb] at hsp
      rw [hsp]
      dsimp only
      rw [get_intent_hit (some "m") (pureModel sc) q2 "m"
        ((normalize q, "unknown") :: cache) "unknown"
        (by rw [h]; exact lookup_cons_self (normalize q) "unknown" cache)]
      exact ⟨rfl, rfl, rfl⟩

/-- C4 witness: second call on a query normalizing like the first returns
the same stored decision with zero encode calls. -/
theorem c4_witness :
    normalize "Saldo " = normalize "saldo" ∧
    ((get_intent (some "m") (pureModel fun _ => 1) "Saldo " (some "m")
        (get_intent (some "m") (pureModel fun _ => 1) "saldo"
            (some "m") []).cache).result
      = (get_intent (some "m") (pureModel fun _ => 1) "saldo"
            (some "m") []).result ∧
     (get_intent (some "m") (pureModel fun _ => 1) "Saldo " (some "m")
        (get_intent (some "m") (pureModel fun _ => 1) "saldo"
            (some "m") []).cache).cache
      = (get_intent (some "m") (pureModel fun _ => 1) "saldo"
            (some "m") []).cache ∧
     (get_intent (some "m") (pureModel fun _ => 1) "Saldo " (some "m")
        (get_intent (some "m") (pureModel fun _ => 1) "saldo"
            (some "m") []).cache).encodeCalls = 0) :=
  ⟨by decide, c4_cache_idempotent (fun _ => 1) "saldo" "Saldo " [] (by decide)⟩

/-- C5: keyword path. When the model is unavailable (no stored model and a
failing construction attempt), the call leaves the cache untouched, makes
no encode call, and its result is first-match over the rule list: either
no trigger of any rule occurs in the normalized query and the result is
"unknown", or the rule list splits around the returned label, one of
whose triggers occurs in the query while no trigger of any earlier rule
does. -/
theorem c5_keyword_first_match {E : Type} (mo : Model E) (q : String)
    (cache : List (String × String)) :
    (get_intent (none : Option E) mo q none cache).cache = cache ∧
    (get_intent (none : Option E) mo q none cache).encodeCalls = 0 ∧
    (((get_intent (none : Option E) mo q none cache).result = "unknown" ∧
        ∀ p ∈ keywords, ∀ w ∈ p.2, strContains w (normalize q) = false) ∨
      ∃ pre ws suf,
        keywords = pre
            ++ ((get_intent (none : Option E) mo q none cache).result, ws)
            :: suf ∧
        (∃ w ∈ ws, strContains w (normalize q) = true) ∧
        ∀ p ∈ pre, ∀ w ∈ p.2, strContains w (normalize q) = false) := by
  rw [get_intent_model_none]
  exact ⟨rfl, rfl, keywordScan_first (normalize q) keywords⟩

/-- C6, counterexample: the claim that an empty-after-normalization query
returns "unknown" on the semantic path too is false. With the model
available, the empty query not cached, and a (legitimate, never-failing)
oracle scoring every label at 1, get_intent on "" runs the normal
semantic path and returns "depósito", not "unknown". -/
theorem c6_counterexample :
    normalize "" = "" ∧
    (get_intent (some "m") (pureModel fun _ => 1) "" (some "m") []).result
      = "depósito" ∧
    (get_intent (some "m") (pureModel fun _ => 1) "" (some "m") []).result
      ≠ "unknown" := by
  exact ⟨rfl, by decide, by decide⟩

/-- C6, amended: an empty-after-normalization query is accepted without
rejection or error and flows through the normal path; on the keyword
path it yields "unknown" (no nonempty trigger occurs in the empty
string); on the semantic path it is scored like any other query, so its
result is "unknown" exactly when no label similarity strictly exceeds the
threshold. This theorem settles the keyword half. -/
theorem c6_keyword_empty {E : Type} (mo : Model E)
    (cache : List (String × String)) (q : String) (h : normalize q = "") :
    (get_intent (none : Option E) mo q none cache).result = "unknown" := by
  rw [get_intent_model_none, h]
  show keywordPath "" = "unknown"
  decide

/-- C6 witness: a whitespace-only query on the keyword path. -/
theorem c6_witness :
    normalize "   " = "" ∧
    (get_intent (none : Option Unit) nullModel "   " none []).result
      = "unknown" :=
  ⟨by decide, c6_keyword_empty nullModel [] "   " (by decide)⟩

/-- C7: error atomicity. If the query embedding raises, or the scoring
loop raises on any label, the semantic-path call returns "unknown" and
the cache is exactly what it was before the call: no entry is added,
removed or altered, and no exception reaches the caller. -/
theorem c7_error_atomic {E : Type} (construct : Option E) (mo : Model E)
    (q : String) (x : E) (cache : List (String × String))
    (hc : List.lookup (normalize q) cache = none)
    (herr : (∃ e, mo.encode (normalize q) = Except.error e) ∨
            (∃ qe, mo.encode (normalize q) = Except.ok qe ∧
               ∃ e n, semanticLoop mo qe intents (-1) "unknown"
                   = (Except.error e, n))) :
    (get_intent construct mo q (some x) cache).result = "unknown" ∧
    (get_intent construct mo q (some x) cache).cache = cache := by
  obtain ⟨hr, hcch⟩ := semPath_err mo (normalize q) cache herr
  rw [get_intent_sem construct mo q x cache hc]
  exact ⟨hr, hcch⟩

/-- C7 witness: the always-raising oracle on a fresh query, with another
query's decision already cached; the call yields "unknown" and the cache
survives untouched. -/
theorem c7_witness :
    List.lookup (normalize "ola") [("a", "saldo")] = none ∧
    ((get_intent (none : Option Unit) nullModel "ola" (some ())
        [("a", "saldo")]).result = "unknown" ∧
     (get_intent (none : Option Unit) nullModel "ola" (some ())
        [("a", "saldo")]).cache = [("a", "saldo")]) :=
  ⟨by decide,
   c7_error_atomic none nullModel "ola" () [("a", "saldo")] (by decide)
     (Or.inl ⟨(), rfl⟩)⟩

/-- C9: substring matching with rule-order shadowing on the keyword path.
A trigger matches anywhere inside the normalized query — "card" inside a
longer word counts — so any query containing "card" in which no trigger
of the two earlier rules (depósito, saldo) occurs resolves to "cartão",
whatever triggers of later rules (e.g. cashback) the query also
contains. -/
theorem c9_substring_shadowing {E : Type} (mo : Model E) (q : String)
    (cache : List (String × String))
    (h1 : strContains "card" (normalize q) = true)
    (h2 : ∀ p ∈ keywords.take 2, ∀ w ∈ p.2,
        strContains w (normalize q) = false) :
    (get_intent (none : Option E) mo q none cache).result = "cartão" := by
  rw [get_intent_model_none]
  show keywordPath (normalize q) = "cartão"
  have hd : (["depositar", "depósito", "tx hash", "adicionar fundos"].any
      fun w => strContains w (normalize q)) = false := by
    apply List.any_eq_false.mpr
    intro w hw
    have h3 := h2 ("depósito", ["depositar", "depósito", "tx hash",
      "adicionar fundos"]) (by decide) w hw
    simp [h3]
  have hs : (["saldo", "quanto tenho", "balance"].any
      fun w => strContains w (normalize q)) = false := by
    apply List.any_eq_false.mpr
    intro w hw
    have h3 := h2 ("saldo", ["saldo", "quanto tenho", "balance"])
      (by decide) w hw
    simp [h3]
  have hcard : (["cartão", "card", "kard"].any
      fun w => strContains w (normalize q)) = true := by
    apply List.any_eq_true.mpr
    exact ⟨"card", by decide, h1⟩
  simp [keywordPath, keywords, keywordScan, hd, hs, hcard]

/-- C9 witness: "discard os pontos" contains "card" inside a longer word
and also the cashback trigger "pontos"; it resolves to "cartão" — the
substring matched and the earlier rule shadowed the later one. -/
theorem c9_witness :
    strContains "card" (normalize "discard os pontos") = true ∧
    (∀ p ∈ keywords.take 2, ∀ w ∈ p.2,
        strContains w (normalize "discard os pontos") = false) ∧
    (get_intent (none : Option Unit) nullModel "discard os pontos" none
        []).result = "cartão" :=
  ⟨by decide, by decide,
   c9_substring_shadowing nullModel "discard os pontos" [] (by decide)
     (by decide)⟩

/-- C10: error results are never cached. After a semantic-path call whose
embedding fails, the normalized query is still absent from the cache, so
a later call with the same query (under any oracle and construction
outcome) misses the cache and re-attempts the embedding computation: it
makes at least one encode call rather than replaying the failing call
result. -/
theorem c10_error_not_cached {E : Type} (mo mo2 : Model E)
    (construct construct2 : Option E) (q : String) (x : E)
    (cache : List (String × String))
    (hc : List.lookup (normalize q) cache = none)
    (herr : (∃ e, mo.encode (normalize q) = Except.error e) ∨
            (∃ qe, mo.encode (normalize q) = Except.ok qe ∧
               ∃ e n, semanticLoop mo qe intents (-1) "unknown"
                   = (Except.error e, n))) :
    List.lookup (normalize q)
        (get_intent construct mo q (some x) cache).cache = none ∧
    1 ≤ (get_intent construct2 mo2 q (some x)
        (get_intent construct mo q (some x) cache).cache).encodeCalls := by
  obtain ⟨hr, hcch⟩ := semPath_err mo (normalize q) cache herr
  have hcache : (get_intent construct mo q (some x) cache).cache = cache := by
    rw [get_intent_sem construct mo q x cache hc]
    exact hcch
  constructor
  · rw [hcache]
    exact hc
  · rw [hcache, get_intent_sem construct2 mo2 q x cache hc]
    exact (semPath_spec mo2 (normalize q) cache).2.2

/-- C10 witness: after a failing call on "ola" the query is still not
cached and the next call makes an encode attempt. -/
theorem c10_witness :
    List.lookup (normalize "ola") ([] : List (String × String)) = none ∧
    (List.lookup (normalize "ola")
        (get_intent (none : Option Unit) nullModel "ola" (some ())
            []).cache = none ∧
     1 ≤ (get_intent (none : Option Unit) nullModel "ola" (some ())
        (get_intent (none : Option Unit) nullModel "ola" (some ())
            []).cache).encodeCalls) :=
  ⟨rfl,
   c10_error_not_cached nullModel nullModel none none "ola" () [] rfl
     (Or.inl ⟨(), rfl⟩)⟩

end KastAI
